import Mathlib

/-!
Shallow embedding of the `later` to-do list manager (src/lib.rs, src/main.rs).

Calendar dates (`chrono::NaiveDate`) are modelled as `Int` day numbers in the
proleptic Gregorian calendar, counted as in `chrono::Datelike::num_days_from_ce`
(day 1 = 0001-01-01, which is a Monday).  Times of day (`chrono::NaiveTime`)
are modelled as `Nat` seconds since midnight; `chrono::Duration` values are
modelled as `Int` seconds.  Strings produced by `format!` are modelled with
`String.append`; `ansi_term` styling is modelled by the concrete ANSI escape
sequences the library emits.
-/

namespace Later

/-- The `DateMaybeTime` enum of src/lib.rs: either a bare date or a local
date-time (date plus seconds since midnight). -/
inductive DateMaybeTime where
  | date (d : Int)
  | dateTime (d : Int) (t : Nat)
deriving DecidableEq, Repr

/-- The `TodoEntry` struct of src/lib.rs. -/
structure TodoEntry where
  title : String
  date : Option DateMaybeTime
deriving DecidableEq, Repr

mutual
/-- The `ListItem` enum of src/lib.rs. -/
inductive ListItem where
  | entry : TodoEntry → ListItem
  | list : TodoList → ListItem
/-- The `TodoList` struct of src/lib.rs (title, date, children). -/
inductive TodoList where
  | mk : String → Option DateMaybeTime → List ListItem → TodoList
end

/-- Projection: the `title` field of `TodoList`. -/
def TodoList.title : TodoList → String
  | .mk t _ _ => t

/-- Projection: the `date` field of `TodoList`. -/
def TodoList.date : TodoList → Option DateMaybeTime
  | .mk _ d _ => d

/-- Projection: the `list` (children) field of `TodoList`. -/
def TodoList.list : TodoList → List ListItem
  | .mk _ _ l => l

/-- Day number of `chrono::naive::MAX_DATE` (262143-12-31), the sentinel date
used by `TodoList::sort` for items without a date. -/
def maxDate : Int := 95745764

/-- Civil (proleptic Gregorian) date `(year, month, day)` of a day number;
standard days-to-civil conversion, used to model chrono's `%Y`/`%B`/`%d`
formatting. -/
def civilOf (d : Int) : Int × Nat × Nat :=
  let z : Int := d - 719163 + 719468
  let era : Int := Int.fdiv z 146097
  let doe : Nat := (z - era * 146097).toNat
  let yoe : Nat := (doe - doe / 1460 + doe / 36524 - doe / 146096) / 365
  let y : Int := (yoe : Int) + era * 400
  let doy : Nat := doe - (365 * yoe + yoe / 4 - yoe / 100)
  let mp : Nat := (5 * doy + 2) / 153
  let dd : Nat := doy - (153 * mp + 2) / 5 + 1
  let m : Nat := if mp < 10 then mp + 3 else mp - 9
  (if m ≤ 2 then y + 1 else y, m, dd)

/-- The year of a day number (chrono `Datelike::year`). -/
def yearOf (d : Int) : Int := (civilOf d).1

/-- Full weekday name of a day number (chrono `%A`); day 1 = 0001-01-01 is a
Monday. -/
def weekdayName (d : Int) : String :=
  ["Monday", "Tuesday", "Wednesday", "Thursday", "Friday", "Saturday",
    "Sunday"].getD ((d - 1).emod 7).toNat "Monday"

/-- Full month name (chrono `%B`). -/
def monthName (m : Nat) : String :=
  ["January", "February", "March", "April", "May", "June", "July", "August",
    "September", "October", "November", "December"].getD (m - 1) "January"

/-- Two-digit zero padding (chrono `%d`, `%H`, `%M`). -/
def pad2 (n : Nat) : String :=
  if n < 10 then "0" ++ toString n else toString n

/-- Four-digit zero padding for years (chrono `%Y`). -/
def pad4 (n : Nat) : String :=
  if n < 10 then "000" ++ toString n
  else if n < 100 then "00" ++ toString n
  else if n < 1000 then "0" ++ toString n
  else toString n

/-- Year formatting (chrono `%Y`). -/
def yearString (y : Int) : String :=
  if y < 0 then "-" ++ pad4 (-y).toNat else pad4 y.toNat

/-- chrono `%B %d` formatting of a day number. -/
def formatMonthDay (d : Int) : String :=
  monthName (civilOf d).2.1 ++ " " ++ pad2 (civilOf d).2.2

/-- chrono `%B %d %Y` formatting of a day number. -/
def formatMonthDayYear (d : Int) : String :=
  formatMonthDay d ++ " " ++ yearString (civilOf d).1

/-- chrono `%R%P` formatting of a time of day given as seconds since
midnight: 24-hour `HH:MM` followed by lowercase `am`/`pm`. -/
def formatTimeRP (t : Nat) : String :=
  pad2 (t / 3600) ++ ":" ++ pad2 (t % 3600 / 60) ++
    (if t / 3600 < 12 then "am" else "pm")

/-- The date component of a `DateMaybeTime` (for a `DateTime`, the date of the
local naive date-time, as in `datetime.naive_local().date()`). -/
def dmtDate : DateMaybeTime → Int
  | .date d => d
  | .dateTime d _ => d

/-- The optional time component of a `DateMaybeTime`. -/
def dmtTime : DateMaybeTime → Option Nat
  | .date _ => none
  | .dateTime _ t => some t

/-- `DateMaybeTime::to_string` of src/lib.rs (lines 71-118): the human
relative-date label, computed against `today` (the day number of the current
local date). -/
def dmtToString (v : DateMaybeTime) (today : Int) : String :=
  let date := dmtDate v
  let days : Int := date - today
  let weeks : Int := Int.tdiv days 7
  let pair : String × String :=
    if days = -1 then ("Yesterday", "")
    else if days = 0 then ("Today", "")
    else if days = 1 then ("Tomorrow", "")
    else
      let ts : String × Int :=
        if 14 ≤ days.natAbs then ("weeks", weeks) else ("days", days)
      (if 1 ≤ days ∧ days ≤ 7 then "upcoming " ++ weekdayName date
       else if -7 ≤ days ∧ days ≤ -1 then "recent " ++ weekdayName date
       else if yearOf date = yearOf today then formatMonthDay date
       else formatMonthDayYear date,
       if days < 0 then "; " ++ toString ts.2.natAbs ++ " " ++ ts.1 ++ " ago"
       else "; in " ++ toString ts.2 ++ " " ++ ts.1)
  match dmtTime v with
  | some t => pair.1 ++ ", " ++ formatTimeRP t ++ pair.2
  | none => pair.1 ++ pair.2

/-- The subset of `ansi_term::Color` used by the program. -/
inductive Color where
  | red
  | yellow
  | green
  | cyan
  | blue
deriving DecidableEq, Repr

/-- `DateMaybeTime::get_color` of src/lib.rs (lines 120-136): urgency colour
relative to now.  `today` is the current local day number and `tod` the
current seconds since local midnight, so `Local::now()` is the instant
`today * 86400 + tod` and `Local::today()` is the date `today`.  For a bare
date the remaining duration is `date - today` whole days; for a date-time it
is the exact difference in seconds. -/
def getColor (v : DateMaybeTime) (today : Int) (tod : Nat) : Color :=
  let remaining : Int :=
    match v with
    | .date d => (d - today) * 86400
    | .dateTime d t => (d * 86400 + (t : Int)) - (today * 86400 + (tod : Int))
  if remaining < 0 then .red
  else if remaining < 86400 then .yellow
  else .green

/-- `Vec::insert` on the children list: insert at position `n ≤ length`.
(The match is on the position first so that applications reduce even when
the list is not in constructor form.) -/
def insertAt {α : Type} (l : List α) (n : Nat) (x : α) : List α :=
  match n, l with
  | 0, l => x :: l
  | _ + 1, [] => [x]
  | n + 1, y :: l => y :: insertAt l n x
termination_by structural n

/-- `TodoList::remove_item` of src/lib.rs (lines 282-320).  The path is the
remaining index iterator; it is consumed left to right.  On the last segment
the child is removed and returned; on a descend segment the removal recurses
into a child sublist and, if that sublist's children became empty, the sublist
is replaced in place by an `Entry` with its title and date.  `remove_item`
never mutates the tree on an error path, so the `Except` result is faithful.
(The Rust code panics on an empty path; callers always pass at least one
segment.) -/
def removeItem : TodoList → List Nat → Except String (ListItem × TodoList)
  | _, [] => .error "empty index"
  | .mk title date l, [i] =>
      if h : i < l.length then
        .ok (l.get ⟨i, h⟩, .mk title date (l.eraseIdx i))
      else .error "Invalid index! (too big)"
  | .mk title date l, i :: j :: rest =>
      if h : i < l.length then
        match l.get ⟨i, h⟩ with
        | .entry _ => .error "Invalid index! (sub-indexing a non-list)"
        | .list s =>
          match removeItem s (j :: rest) with
          | .error e => .error e
          | .ok (item, s2) =>
            let child := if s2.list.isEmpty then
                ListItem.entry ⟨s2.title, s2.date⟩
              else ListItem.list s2
            .ok (item, .mk title date (l.set i child))
      else .error "Invalid index! (too big)"

/-- `TodoList::insert_item` of src/lib.rs (lines 322-365), modelled with the
mutated `&mut self` threaded through explicitly: the returned `TodoList` is
the tree after the call and the `Option String` is the error, if any.  (On
an error the Rust tree keeps any mutation already performed; the only such
case is the promotion of an `Entry` to an empty sublist when the inner
insertion then fails.)  On the last path segment the item is inserted at that
position if it is `≤ length`; on a descend segment the insertion recurses
into a sublist, and an `Entry` met with exactly one remaining segment is
promoted to a sublist with the same title and date before recursing. -/
def insertItem : ListItem → List Nat → TodoList → TodoList × Option String
  | _, [], t => (t, some "empty index")
  | item, [i], .mk title date l =>
      if i ≤ l.length then (.mk title date (insertAt l i item), none)
      else (.mk title date l, some "Invalid index! (too big)")
  | item, i :: j :: rest, .mk title date l =>
      if h : i < l.length then
        match l.get ⟨i, h⟩ with
        | .list s =>
            (.mk title date (l.set i (.list (insertItem item (j :: rest) s).1)),
              (insertItem item (j :: rest) s).2)
        | .entry e =>
            if (j :: rest).length = 1 then
              (.mk title date (l.set i
                  (.list (insertItem item (j :: rest) (.mk e.title e.date [])).1)),
                (insertItem item (j :: rest) (.mk e.title e.date [])).2)
            else (.mk title date l, some "Invalid index! (sub-indexing a non-list)")
      else (.mk title date l, some "Invalid index! (too big)")

/-- `TodoList::add_item` of src/lib.rs (lines 240-280), threaded like
`insertItem`.  An exhausted path appends the item to the current children;
an `Entry` met with an exhausted remaining path is promoted to a sublist with
the same title and date and the item is appended into it. -/
def addItem : ListItem → List Nat → TodoList → TodoList × Option String
  | item, [], .mk title date l => (.mk title date (l ++ [item]), none)
  | item, i :: rest, .mk title date l =>
      if h : i < l.length then
        match l.get ⟨i, h⟩ with
        | .list s =>
            (.mk title date (l.set i (.list (addItem item rest s).1)),
              (addItem item rest s).2)
        | .entry e =>
            if rest.length = 0 then
              (.mk title date (l.set i (.list (addItem item rest (.mk e.title e.date [])).1)),
                (addItem item rest (.mk e.title e.date [])).2)
            else (.mk title date l, some "Invalid index! (sub-indexing a non-list)")
      else (.mk title date l, some "Invalid index! (too big)")

/-- The `move` subcommand of src/main.rs (lines 311-318): remove at the
source path, then insert the removed item at the target path, with no
rollback.  The returned tree is the in-memory tree after the command and the
`Option String` the error, if any. -/
def moveItem (t : TodoList) (fromPath toPath : List Nat) : TodoList × Option String :=
  match removeItem t fromPath with
  | .error e => (t, some e)
  | .ok (item, t1) => insertItem item toPath t1

/-- Observation function (not part of the source): the node addressed by a
path, descending through sublists. -/
def getAt : TodoList → List Nat → Option ListItem
  | _, [] => none
  | .mk _ _ l, [i] => l[i]?
  | .mk _ _ l, i :: j :: rest =>
      match l[i]? with
      | some (.list s) => getAt s (j :: rest)
      | _ => none

/-- Observation function: `true` when `removeItem` along this path triggers
no auto-demotion, i.e. the sublist holding the removed node keeps at least
one child. -/
def noDemote : TodoList → List Nat → Bool
  | _, [] => true
  | _, [_] => true
  | .mk _ _ l, i :: j :: rest =>
      match l[i]? with
      | some (.list s) =>
          (!rest.isEmpty || s.list.length != 1) && noDemote s (j :: rest)
      | _ => true

/-- The title of a `ListItem` (either variant). -/
def itemTitle : ListItem → String
  | .entry e => e.title
  | .list l => l.title

/-- The optional date of a `ListItem` (either variant), as read by the sort
key closure of `TodoList::sort`. -/
def itemDate : ListItem → Option DateMaybeTime
  | .entry e => e.date
  | .list l => l.date

/-- The sort key of `TodoList::sort` (src/lib.rs lines 373-386): the item's
date, defaulting to `MAX_DATE` when absent, split into `(date, optional
time)`. -/
def sortKey (item : ListItem) : Int × Option Nat :=
  match (itemDate item).getD (DateMaybeTime.date maxDate) with
  | .date d => (d, none)
  | .dateTime d t => (d, some t)

/-- The derived `Ord` on `Option<NaiveTime>`: `None` sorts before `Some`. -/
def optTimeLe : Option Nat → Option Nat → Prop
  | none, _ => True
  | some _, none => False
  | some x, some y => x ≤ y

instance : ∀ a b, Decidable (optTimeLe a b)
  | none, _ => .isTrue trivial
  | some _, none => .isFalse id
  | some x, some y => inferInstanceAs (Decidable (x ≤ y))

/-- The derived lexicographic `Ord` on the `(NaiveDate, Option<NaiveTime>)`
sort key. -/
def keyLe (a b : Int × Option Nat) : Prop :=
  a.1 < b.1 ∨ (a.1 = b.1 ∧ optTimeLe a.2 b.2)

instance (a b : Int × Option Nat) : Decidable (keyLe a b) := by
  unfold keyLe; infer_instance

/-- Comparison of two items by their sort key. -/
def itemLe (a b : ListItem) : Prop := keyLe (sortKey a) (sortKey b)

instance (a b : ListItem) : Decidable (itemLe a b) := by
  unfold itemLe; infer_instance

/-- `Vec::sort_by_cached_key` on one level of children: a stable sort by
`sortKey`.  A stable sort's output is uniquely determined by the input order
and the key order, so the stable `List.insertionSort` is an exact model. -/
def sortLevel (l : List ListItem) : List ListItem :=
  List.insertionSort itemLe l

mutual
/-- The recursion of `TodoList::sort` over the children: each child sublist
is sorted in place, entries are untouched. -/
def sortItems : List ListItem → List ListItem
  | [] => []
  | .entry e :: rest => .entry e :: sortItems rest
  | .list s :: rest => .list (TodoList.sort s) :: sortItems rest
/-- `TodoList::sort` of src/lib.rs (lines 367-387): sort all child sublists
recursively, then stable-sort this level's children by `sortKey`. -/
def TodoList.sort : TodoList → TodoList
  | .mk title date l => .mk title date (sortLevel (sortItems l))
end

mutual
/-- Observation function: all sibling levels of a tree (the children list of
the root and, recursively, of every sublist). -/
def levelsItems : List ListItem → List (List ListItem)
  | [] => []
  | .entry _ :: rest => levelsItems rest
  | .list s :: rest => levelsList s ++ levelsItems rest
/-- Observation function: all sibling levels of a `TodoList`. -/
def levelsList : TodoList → List (List ListItem)
  | .mk _ _ l => l :: levelsItems l
end

mutual
/-- Observation function: the `(title, date)` pairs of all nodes of the
children, in pre-order. -/
def nodesItems : List ListItem → List (String × Option DateMaybeTime)
  | [] => []
  | .entry e :: rest => (e.title, e.date) :: nodesItems rest
  | .list s :: rest => nodesList s ++ nodesItems rest
/-- Observation function: the `(title, date)` pairs of all nodes of a
`TodoList`, in pre-order (root first). -/
def nodesList : TodoList → List (String × Option DateMaybeTime)
  | .mk title date l => (title, date) :: nodesItems l
end

/-- Observation function: the `(title, date)` pairs of all nodes of a
`ListItem`, in pre-order. -/
def nodesItem : ListItem → List (String × Option DateMaybeTime)
  | .entry e => [(e.title, e.date)]
  | .list s => nodesList s

/-- Observation function: the titles of the undated items of one level, in
order. -/
def undatedTitles (l : List ListItem) : List String :=
  (l.filter fun x => (itemDate x).isNone).map itemTitle

/-- Observation function: `true` when, in this level, no undated item is
followed (anywhere later) by a dated item — i.e. every item without a date
appears after every item with a date. -/
def undatedLast : List ListItem → Bool
  | [] => true
  | x :: rest =>
      (if (itemDate x).isNone then rest.all fun y => (itemDate y).isNone
       else true) && undatedLast rest

/-- The ANSI escape character emitted by `ansi_term`. -/
def esc : String := "\u001b"

/-- `ansi_term::Color::paint`: wrap a string in the given SGR colour code. -/
def paint (code : Nat) (s : String) : String :=
  esc ++ "[" ++ toString code ++ "m" ++ s ++ esc ++ "[0m"

/-- The SGR code of each `ansi_term::Color` used. -/
def colorCode : Color → Nat
  | .red => 31
  | .yellow => 33
  | .green => 32
  | .cyan => 36
  | .blue => 34

/-- `Style::new().underline().paint`. -/
def underline (s : String) : String :=
  esc ++ "[4m" ++ s ++ esc ++ "[0m"

/-- `str::repeat` of the three-space indentation unit. -/
def indentSpaces : Nat → String
  | 0 => ""
  | n + 1 => "   " ++ indentSpaces n

/-- The coloured `(relative date)` tag attached to a dated node. -/
def dateTag (dm : DateMaybeTime) (today : Int) (tod : Nat) : String :=
  paint (colorCode (getColor dm today tod)) ("(" ++ dmtToString dm today ++ ")")

/-- The conditional newline after each rendered child: `"\n"` unless the
child is the last of its level and the level is rendered at indent ≠ 0
(`i != self.list.len() - 1 || indent == 0` in src/lib.rs line 212). -/
def childSep (i len indent : Nat) : String :=
  if i ≠ len - 1 ∨ indent = 0 then "\n" else ""

/-- `TodoEntry::write_to` of src/lib.rs (lines 140-152): the entry's title,
followed by its coloured date tag when it has one. -/
def entryWriteTo (e : TodoEntry) (today : Int) (tod : Nat) : String :=
  match e.date with
  | some dm => e.title ++ " " ++ dateTag dm today tod
  | none => e.title

/-- The per-child marker of `TodoList::write_to`: cyan `"<i>)"` for an
entry, blue `"<i>--->"` for a sublist. -/
def markerFor (x : ListItem) (i : Nat) : String :=
  match x with
  | .entry _ => paint 36 (toString i ++ ")")
  | .list _ => paint 34 (toString i ++ "--->")

/-- The optional date tag after a title: empty when there is no date. -/
def dateTagOpt (date : Option DateMaybeTime) (today : Int) (tod : Nat) : String :=
  match date with
  | some dm => dateTag dm today tod
  | none => ""

mutual
/-- `ListItem::write_to` of src/lib.rs (lines 390-401): dispatch the
rendering on the variant. -/
def ListItem.writeTo : ListItem → Nat → Int → Nat → String
  | .entry e, _, today, tod => entryWriteTo e today tod
  | .list s, indent, today, tod => TodoList.writeTo s indent today tod
/-- The child loop of `TodoList::write_to`: each child is rendered as
`indent prefix + marker + space + body`, followed by `childSep`.  `i` is the
child's index and `len` the level's total child count. -/
def writeChildren : List ListItem → Nat → Nat → Nat → Int → Nat → String
  | [], _, _, _, _, _ => ""
  | x :: rest, i, len, indent, today, tod =>
      indentSpaces indent ++ markerFor x i ++ " " ++
        ListItem.writeTo x (indent + 1) today tod ++ childSep i len indent ++
        writeChildren rest (i + 1) len indent today tod
/-- `TodoList::write_to` of src/lib.rs (lines 176-220): the underlined title
line (prefixed by three spaces at indent 0) with its optional date tag,
then every child rendered by `writeChildren`. -/
def TodoList.writeTo : TodoList → Nat → Int → Nat → String
  | .mk title date l, indent, today, tod =>
      (if indent = 0 then "   " else "") ++ underline title ++ " " ++
        dateTagOpt date today tod ++ "\n" ++
        writeChildren l 0 l.length indent today tod
end

/-- Observation predicate: the string ends with a newline character. -/
def endsWithNewline (s : String) : Prop := ∃ p, s = p ++ "\n"

/-- The urgency classification exactly as claim C8 words it: the remaining
duration is target minus now, where a date-only target is taken at the
midnight that starts its date. -/
def urgencyClaim (v : DateMaybeTime) (today : Int) (tod : Nat) : Color :=
  let now : Int := today * 86400 + (tod : Int)
  let remaining : Int :=
    match v with
    | .date d => d * 86400 - now
    | .dateTime d t => (d * 86400 + (t : Int)) - now
  if remaining < 0 then .red
  else if remaining < 86400 then .yellow
  else .green

/-- The urgency classification as amended: for a date-only value the
remaining duration is the whole-day difference between the target date and
today (both taken at midnight), so it is overdue exactly when the date is
past, due soon exactly when the date is today; a date-time value is compared
against the exact current instant with the same `< 0` / `< 24h`
thresholds. -/
def urgencyAmended (v : DateMaybeTime) (today : Int) (tod : Nat) : Color :=
  match v with
  | .date d =>
      if d < today then .red
      else if d = today then .yellow
      else .green
  | .dateTime d t =>
      let remaining : Int := (d * 86400 + (t : Int)) - (today * 86400 + (tod : Int))
      if remaining < 0 then .red
      else if remaining < 86400 then .yellow
      else .green

/-! ## Helper lemmas -/

theorem insertAt_eraseIdx {α : Type} :
    ∀ (l : List α) (i : Nat) (h : i < l.length), insertAt (l.eraseIdx i) i l[i] = l
  | _ :: _, 0, _ => rfl
  | y :: l, n + 1, h => by
      simpa [insertAt, List.eraseIdx] using
        insertAt_eraseIdx l n (Nat.lt_of_succ_lt_succ h)

theorem insertAt_length_append {α : Type} :
    ∀ (l : List α) (x : α), insertAt l l.length x = l ++ [x]
  | [], _ => rfl
  | y :: l, x => by simp [insertAt, insertAt_length_append l x]

theorem get_set_self {α : Type} :
    ∀ (l : List α) (i : Nat) (x : α) (h : i < (l.set i x).length), (l.set i x)[i] = x
  | _ :: _, 0, _, _ => rfl
  | _ :: l, n + 1, x, h => get_set_self l n x (Nat.lt_of_succ_lt_succ h)

theorem set_get_self {α : Type} :
    ∀ (l : List α) (i : Nat) (h : i < l.length), l.set i l[i] = l
  | _ :: _, 0, _ => rfl
  | _ :: l, n + 1, h => by
      simp [List.set, set_get_self l n (Nat.lt_of_succ_lt_succ h)]

theorem eraseIdx_length {α : Type} (l : List α) (i : Nat) (h : i < l.length) :
    (l.eraseIdx i).length = l.length - 1 := by
  rw [List.length_eraseIdx]
  simp [h]

/-! ## C8: urgency classification -/

/-- C8 counterexample: for a date-only value due today, seen at noon, the
claim's remaining duration (midnight of the target date minus now) is
negative, so the claim classifies it Overdue (red); the code compares the
target date with today's date and classifies it DueSoon (yellow). -/
theorem urgency_claim_counterexample :
    urgencyClaim (.date 0) 0 43200 = Color.red ∧
    getColor (.date 0) 0 43200 = Color.yellow := by
  exact ⟨rfl, rfl⟩

/-- C8 amended: the classification is Overdue exactly when the remaining
duration is negative, DueSoon exactly when it is non-negative and under 24
hours, and Upcoming otherwise — where for a date-only value the remaining
duration is the whole-day difference between the target date and today's
date (both at midnight), not midnight-of-target minus the current instant;
equivalently, a date-only value is Overdue iff its date is past, DueSoon iff
it is today, Upcoming iff it is in the future.  For date-time values the
claim's formula is exact. -/
theorem getColor_eq_urgencyAmended (v : DateMaybeTime) (today : Int) (tod : Nat) :
    getColor v today tod = urgencyAmended v today tod := by
  cases v with
  | date d =>
      simp only [getColor, urgencyAmended]
      split_ifs <;> first | rfl | omega
  | dateTime d t => rfl

/-! ## C7: the "upcoming Weekday" label -/

/-- C7 counterexample: for a date exactly 3 days ahead the label is
`"upcoming Thursday; in 3 days"` — the day-count suffix is appended in the
`upcoming` branch too, so the result is not exactly `"upcoming <Weekday>"`.
(Day 739904 is Thursday 2026-10-15; day 739901 is Monday 2026-10-12.) -/
theorem upcoming_label_counterexample :
    dmtToString (.date 739904) 739901 = "upcoming Thursday; in 3 days" ∧
    dmtToString (.date 739904) 739901 ≠ "upcoming " ++ weekdayName 739904 := by
  exact ⟨rfl, by decide⟩

/-- C7 amended: for a date-only value 2 to 7 days in the future, the label is
`"upcoming <Weekday>"` followed by the day-count suffix `"; in k days"` (the
suffix is produced for every offset outside −1/0/+1, the weekday branch
included). -/
theorem upcoming_label_amended (today k : Int) (h2 : 2 ≤ k) (h7 : k ≤ 7) :
    dmtToString (.date (today + k)) today =
      "upcoming " ++ weekdayName (today + k) ++ "; in " ++ toString k ++ " days" := by
  have hdays : today + k - today = k := by ring
  have c1 : ¬(k = -1) := by omega
  have c2 : ¬(k = 0) := by omega
  have c3 : ¬(k = 1) := by omega
  have c4 : ¬(14 ≤ k.natAbs) := by omega
  have c5 : 1 ≤ k ∧ k ≤ 7 := by omega
  have c6 : ¬(k < 0) := by omega
  simp only [dmtToString, dmtDate, dmtTime, hdays, if_neg c1, if_neg c2,
    if_neg c3, if_neg c4, if_pos c5, if_neg c6]
  simp [String.append_assoc]

/-- Witness for the amended C7 theorem at today = Monday 2026-10-12 and
offset 3. -/
theorem upcoming_label_amended_witness :
    dmtToString (.date (739901 + 3)) 739901 =
      "upcoming " ++ weekdayName (739901 + 3) ++ "; in " ++ toString (3 : Int) ++ " days" :=
  upcoming_label_amended 739901 3 (by decide) (by decide)

/-! ## C5: positional insertion bounds -/

/-- C5 counterexample: inserting at final position 3 into a 2-child level
fails with `IndexError("too big")` although 3 does not exceed the children
length + 1 — the code rejects every final position strictly greater than the
children length, not strictly greater than length + 1. -/
theorem insert_bound_counterexample :
    (insertItem (.entry ⟨"n", none⟩) [3]
        (.mk "r" none [.entry ⟨"a", none⟩, .entry ⟨"b", none⟩])).2 =
      some "Invalid index! (too big)" ∧ 3 ≤ 2 + 1 := by
  exact ⟨rfl, by decide⟩

/-- C5 amended: a final position `i ≤ length` succeeds, inserting at that
position (so position = length appends the item last), and the operation
fails with `IndexError("too big")` exactly when the final position exceeds
the children length; a descend segment fails with `IndexError("too big")`
when it is ≥ the children length. -/
theorem insert_positions (title : String) (date : Option DateMaybeTime)
    (l : List ListItem) (item : ListItem) (i : Nat) :
    (i ≤ l.length →
      insertItem item [i] (.mk title date l) =
        (.mk title date (insertAt l i item), none)) ∧
    (l.length < i →
      insertItem item [i] (.mk title date l) =
        (.mk title date l, some "Invalid index! (too big)")) ∧
    insertAt l l.length item = l ++ [item] ∧
    (∀ j j2 rest, l.length ≤ j →
      insertItem item (j :: j2 :: rest) (.mk title date l) =
        (.mk title date l, some "Invalid index! (too big)")) := by
  refine ⟨fun h => ?_, fun h => ?_, insertAt_length_append l item, fun j j2 rest h => ?_⟩
  · simp [insertItem, h]
  · simp [insertItem, Nat.not_le.mpr h]
  · simp [insertItem, Nat.not_lt.mpr h]

/-- Witness for the amended C5 theorem: position 2 = length appends last;
position 3 = length + 1 fails; descend segment 2 ≥ length fails. -/
theorem insert_positions_witness :
    insertItem (.entry ⟨"n", none⟩) [2]
        (.mk "r" none [.entry ⟨"a", none⟩, .entry ⟨"b", none⟩]) =
      (.mk "r" none [.entry ⟨"a", none⟩, .entry ⟨"b", none⟩, .entry ⟨"n", none⟩], none) ∧
    insertItem (.entry ⟨"n", none⟩) [3]
        (.mk "r" none [.entry ⟨"a", none⟩, .entry ⟨"b", none⟩]) =
      (.mk "r" none [.entry ⟨"a", none⟩, .entry ⟨"b", none⟩],
        some "Invalid index! (too big)") ∧
    insertItem (.entry ⟨"n", none⟩) [2, 0]
        (.mk "r" none [.entry ⟨"a", none⟩, .entry ⟨"b", none⟩]) =
      (.mk "r" none [.entry ⟨"a", none⟩, .entry ⟨"b", none⟩],
        some "Invalid index! (too big)") := by
  have h := insert_positions "r" none [.entry ⟨"a", none⟩, .entry ⟨"b", none⟩]
    (.entry ⟨"n", none⟩) 2
  have h3 := insert_positions "r" none [.entry ⟨"a", none⟩, .entry ⟨"b", none⟩]
    (.entry ⟨"n", none⟩) 3
  refine ⟨?_, h3.2.1 (by decide), h.2.2.2 2 0 [] (by decide)⟩
  rw [h.1 (by decide)]
  rfl

/-! ## C3: a move whose insert fails loses the item -/

theorem nodesItems_cons (x : ListItem) (l : List ListItem) :
    nodesItems (x :: l) = nodesItem x ++ nodesItems l := by
  cases x <;> rw [nodesItems] <;> rfl

theorem nodesItems_append (a b : List ListItem) :
    nodesItems (a ++ b) = nodesItems a ++ nodesItems b := by
  induction a with
  | nil => rw [nodesItems, List.nil_append, List.nil_append]
  | cons x a ih =>
      rw [List.cons_append, nodesItems_cons, nodesItems_cons, ih, List.append_assoc]

theorem nodesItems_split (l : List ListItem) (i : Nat) (h : i < l.length) :
    nodesItems l =
      nodesItems (l.take i) ++ (nodesItem l[i] ++ nodesItems (l.drop (i + 1))) := by
  conv_lhs => rw [← List.take_append_drop i l, List.drop_eq_getElem_cons h]
  rw [nodesItems_append, nodesItems_cons]

theorem nodesItems_set (l : List ListItem) (i : Nat) (x : ListItem) (h : i < l.length) :
    nodesItems (l.set i x) =
      nodesItems (l.take i) ++ (nodesItem x ++ nodesItems (l.drop (i + 1))) := by
  rw [List.set_eq_take_append_cons_drop, if_pos h, nodesItems_append, nodesItems_cons]

theorem nodesItems_eraseIdx (l : List ListItem) (i : Nat) :
    nodesItems (l.eraseIdx i) = nodesItems (l.take i) ++ nodesItems (l.drop (i + 1)) := by
  rw [List.eraseIdx_eq_take_drop_succ, nodesItems_append]

/-- The auto-demotion of an emptied sublist keeps the pre-order `(title,
date)` listing unchanged. -/
theorem nodesItem_demote (s : TodoList) :
    nodesItem (if s.list.isEmpty then ListItem.entry ⟨s.title, s.date⟩
      else ListItem.list s) = nodesList s := by
  obtain ⟨title, date, l⟩ := s
  cases l <;> rfl

/-- A successful removal deletes exactly the removed subtree's nodes from
the pre-order `(title, date)` listing, in place. -/
theorem remove_nodes :
    ∀ (p : List Nat) (t : TodoList) (item : ListItem) (t2 : TodoList),
      removeItem t p = .ok (item, t2) →
      ∃ A B, nodesList t = A ++ (nodesItem item ++ B) ∧ nodesList t2 = A ++ B
  | [], t, item, t2, hs => by
      obtain ⟨title, date, l⟩ := t
      simp [removeItem] at hs
  | [i], .mk title date l, item, t2, hs => by
      rw [removeItem] at hs
      split at hs
      case isTrue h =>
        simp only [Except.ok.injEq, Prod.mk.injEq] at hs
        obtain ⟨h1, h2⟩ := hs
        subst h1
        subst h2
        refine ⟨(title, date) :: nodesItems (l.take i), nodesItems (l.drop (i + 1)), ?_, ?_⟩
        · rw [nodesList, nodesItems_split l i h, List.cons_append]
          rfl
        · rw [nodesList, nodesItems_eraseIdx, List.cons_append]
      case isFalse h => exact absurd hs (by simp)
  | i :: j :: rest, .mk title date l, item, t2, hs => by
      rw [removeItem] at hs
      split at hs
      case isFalse h => exact absurd hs (by simp)
      case isTrue h =>
        split at hs
        case h_1 => exact absurd hs (by simp)
        case h_2 s hget =>
          split at hs
          case h_1 => exact absurd hs (by simp)
          case h_2 item2 s2 hrec =>
            simp only [Except.ok.injEq, Prod.mk.injEq] at hs
            obtain ⟨h1, h2⟩ := hs
            subst h1
            subst h2
            obtain ⟨A2, B2, ih1, ih2⟩ := remove_nodes (j :: rest) s item2 s2 hrec
            have hget2 : l[i] = ListItem.list s := by
              rw [← hget]
              simp
            refine ⟨(title, date) :: (nodesItems (l.take i) ++ A2),
              B2 ++ nodesItems (l.drop (i + 1)), ?_, ?_⟩
            · rw [nodesList, nodesItems_split l i h, hget2]
              have : nodesItem (ListItem.list s) = A2 ++ (nodesItem item2 ++ B2) := ih1
              rw [this]
              simp [List.append_assoc]
            · rw [nodesList, nodesItems_set l i _ h, nodesItem_demote, ih2]
              simp [List.append_assoc]

/-- An insertion that fails leaves the pre-order `(title, date)` listing of
the tree unchanged (the only mutation an insertion performs before failing
is promoting an entry to an empty sublist, which preserves the listing). -/
theorem insert_err_nodes :
    ∀ (p : List Nat) (item : ListItem) (t t2 : TodoList) (e : String),
      insertItem item p t = (t2, some e) → nodesList t2 = nodesList t
  | [], item, t, t2, e, hs => by
      obtain ⟨title, date, l⟩ := t
      rw [insertItem] at hs
      simp only [Prod.mk.injEq] at hs
      rw [← hs.1]
  | [i], item, .mk title date l, t2, e, hs => by
      rw [insertItem] at hs
      split at hs
      case isTrue h => simp at hs
      case isFalse h =>
        simp only [Prod.mk.injEq] at hs
        rw [← hs.1]
  | i :: j :: rest, item, .mk title date l, t2, e, hs => by
      rw [insertItem] at hs
      split at hs
      case isFalse h =>
        simp only [Prod.mk.injEq] at hs
        rw [← hs.1]
      case isTrue h =>
        split at hs
        case h_1 s hget =>
          simp only [Prod.mk.injEq] at hs
          obtain ⟨h1, h2⟩ := hs
          have hrec : insertItem item (j :: rest) s =
              ((insertItem item (j :: rest) s).1, some e) := by
            rw [← h2]
          have ihn := insert_err_nodes (j :: rest) item s
            (insertItem item (j :: rest) s).1 e hrec
          have hget2 : l[i] = ListItem.list s := by
            rw [← hget]
            simp
          rw [← h1, nodesList, nodesList, nodesItems_set l i _ h,
            nodesItems_split l i h, hget2]
          rw [show nodesItem (ListItem.list (insertItem item (j :: rest) s).1) =
            nodesItem (ListItem.list s) from ihn]
        case h_2 e0 hget =>
          split at hs
          case isTrue hlen =>
            simp only [Prod.mk.injEq] at hs
            obtain ⟨h1, h2⟩ := hs
            have hrec : insertItem item (j :: rest) (.mk e0.title e0.date []) =
                ((insertItem item (j :: rest) (.mk e0.title e0.date [])).1, some e) := by
              rw [← h2]
            have ihn := insert_err_nodes (j :: rest) item (.mk e0.title e0.date [])
              (insertItem item (j :: rest) (.mk e0.title e0.date [])).1 e hrec
            have hget2 : l[i] = ListItem.entry e0 := by
              rw [← hget]
              simp
            rw [← h1, nodesList, nodesList, nodesItems_set l i _ h,
              nodesItems_split l i h, hget2]
            rw [show nodesItem (ListItem.list (insertItem item (j :: rest)
              (.mk e0.title e0.date [])).1) = nodesItem (ListItem.entry e0) from ihn]
          case isFalse hlen =>
            simp only [Prod.mk.injEq] at hs
            rw [← hs.1]

/-- C3: `Move` is exactly `Remove` then `Insert` with no rollback: whenever
the removal succeeds and the subsequent insertion fails, the final in-memory
tree is the insertion's output state, and the removed item is restored
nowhere — the final tree's pre-order `(title, date)` listing together with
the removed subtree's listing is a permutation of the original tree's, i.e.
exactly the removed subtree's nodes are missing. -/
theorem move_no_rollback (t : TodoList) (fromPath toPath : List Nat)
    (item : ListItem) (t1 t2 : TodoList) (e : String)
    (hrm : removeItem t fromPath = .ok (item, t1))
    (hins : insertItem item toPath t1 = (t2, some e)) :
    moveItem t fromPath toPath = (t2, some e) ∧
    (nodesItem item ++ nodesList t2).Perm (nodesList t) := by
  refine ⟨by rw [moveItem, hrm]; exact hins, ?_⟩
  obtain ⟨A, B, h1, h2⟩ := remove_nodes fromPath t item t1 hrm
  rw [insert_err_nodes toPath item t1 t2 e hins, h2, h1,
    ← List.append_assoc, ← List.append_assoc]
  exact List.perm_append_comm.append_right B

/-- Witness for the C3 theorem: moving the only entry of a one-child root to
the out-of-range position 5 removes it, fails the insert, and leaves a tree
from which the entry's node is gone. -/
theorem move_no_rollback_witness :
    moveItem (.mk "r" none [.entry ⟨"a", none⟩]) [0] [5] =
      (.mk "r" none [], some "Invalid index! (too big)") ∧
    (nodesItem (.entry ⟨"a", none⟩) ++ nodesList (.mk "r" none [])).Perm
      (nodesList (.mk "r" none [.entry ⟨"a", none⟩])) :=
  move_no_rollback (.mk "r" none [.entry ⟨"a", none⟩]) [0] [5]
    (.entry ⟨"a", none⟩) (.mk "r" none []) (.mk "r" none [])
    "Invalid index! (too big)" rfl rfl

/-! ## C4: remove-then-insert round trip -/

theorem removeItem_single_inv (title : String) (date : Option DateMaybeTime)
    (l : List ListItem) (i : Nat) (item : ListItem) (t2 : TodoList)
    (hs : removeItem (.mk title date l) [i] = .ok (item, t2)) :
    ∃ h : i < l.length, item = l[i] ∧ t2 = .mk title date (l.eraseIdx i) := by
  rw [removeItem] at hs
  split at hs
  case isTrue h =>
    simp only [Except.ok.injEq, Prod.mk.injEq] at hs
    exact ⟨h, by simp [← hs.1], hs.2.symm⟩
  case isFalse h => exact absurd hs (by simp)

theorem removeItem_cons_inv (title : String) (date : Option DateMaybeTime)
    (l : List ListItem) (i j : Nat) (rest : List Nat) (item : ListItem) (t2 : TodoList)
    (hs : removeItem (.mk title date l) (i :: j :: rest) = .ok (item, t2)) :
    ∃ (h : i < l.length) (s s2 : TodoList), l[i] = .list s ∧
      removeItem s (j :: rest) = .ok (item, s2) ∧
      t2 = .mk title date (l.set i
        (if s2.list.isEmpty then .entry ⟨s2.title, s2.date⟩ else .list s2)) := by
  rw [removeItem] at hs
  split at hs
  case isFalse h => exact absurd hs (by simp)
  case isTrue h =>
    split at hs
    case h_1 => exact absurd hs (by simp)
    case h_2 s hget =>
      split at hs
      case h_1 => exact absurd hs (by simp)
      case h_2 item2 s2 hrec =>
        simp only [Except.ok.injEq, Prod.mk.injEq] at hs
        obtain ⟨h1, h2⟩ := hs
        subst h1
        exact ⟨h, s, s2, by rw [← hget]; simp, hrec, h2.symm⟩

/-- Unfolding of `noDemote` on a descend segment pointing at a sublist. -/
theorem noDemote_cons (title : String) (date : Option DateMaybeTime)
    (l : List ListItem) (i j : Nat) (rest : List Nat) (s : TodoList)
    (hget : l[i]? = some (.list s)) :
    noDemote (.mk title date l) (i :: j :: rest) =
      ((!rest.isEmpty || s.list.length != 1) && noDemote s (j :: rest)) := by
  rw [noDemote, hget]

/-- A successful removal whose path is not a single segment into a
one-child level leaves the level holding the removed node nonempty. -/
theorem remove_keeps_nonempty (p : List Nat) (s : TodoList) (item : ListItem)
    (s2 : TodoList) (hp : p ≠ []) (hs : removeItem s p = .ok (item, s2))
    (hnd : p.length = 1 → s.list.length ≠ 1) : s2.list ≠ [] := by
  obtain ⟨st, sd, sl⟩ := s
  match p, hp with
  | [i], _ =>
      obtain ⟨h, _, hshape⟩ := removeItem_single_inv st sd sl i item s2 hs
      subst hshape
      have hlen := eraseIdx_length sl i h
      have hne := hnd rfl
      simp only [TodoList.list] at hne ⊢
      intro hnil
      have h0 : (sl.eraseIdx i).length = 0 := by rw [hnil]; rfl
      rw [hlen] at h0
      omega
  | i :: j :: rest, _ =>
      obtain ⟨h, su, su2, _, _, hshape⟩ := removeItem_cons_inv st sd sl i j rest item s2 hs
      subst hshape
      simp only [TodoList.list]
      intro hnil
      have h2 := congrArg List.length hnil
      rw [List.length_set, List.length_nil] at h2
      omega

/-- C4: for every tree and path on which `Remove` succeeds without
triggering any auto-demotion (`noDemote`), inserting the removed item back
at the same path restores the original tree exactly. -/
theorem remove_insert_roundtrip :
    ∀ (p : List Nat) (t : TodoList) (item : ListItem) (t2 : TodoList),
      removeItem t p = .ok (item, t2) → noDemote t p = true →
      insertItem item p t2 = (t, none)
  | [], t, item, t2, hs, _ => by
      obtain ⟨title, date, l⟩ := t
      simp [removeItem] at hs
  | [i], .mk title date l, item, t2, hs, _ => by
      obtain ⟨h, hitem, hshape⟩ := removeItem_single_inv title date l i item t2 hs
      subst hshape
      rw [insertItem]
      rw [if_pos (by rw [eraseIdx_length l i h]; omega)]
      rw [hitem, insertAt_eraseIdx l i h]
  | i :: j :: rest, .mk title date l, item, t2, hs, hnd => by
      obtain ⟨h, s, s2, hget, hrec, hshape⟩ := removeItem_cons_inv title date l i j rest item t2 hs
      subst hshape
      have hgetq : l[i]? = some (.list s) := by rw [List.getElem?_eq_getElem h, hget]
      rw [noDemote_cons title date l i j rest s hgetq, Bool.and_eq_true] at hnd
      obtain ⟨hnd1, hnd2⟩ := hnd
      have hns : s2.list ≠ [] := by
        refine remove_keeps_nonempty (j :: rest) s item s2 (by simp) hrec ?_
        intro hlen1
        have hrest : rest = [] := by
          cases rest
          · rfl
          · simp at hlen1
        subst hrest
        simp only [List.isEmpty_nil, Bool.not_true, Bool.false_or, bne_iff_ne] at hnd1
        exact hnd1
      rw [if_neg (by simpa [List.isEmpty_iff] using hns)]
      have ih := remove_insert_roundtrip (j :: rest) s item s2 hrec hnd2
      simp only [insertItem]
      rw [dif_pos (by rw [List.length_set]; exact h)]
      have hgs : (l.set i (ListItem.list s2)).get
          ⟨i, by rw [List.length_set]; exact h⟩ = ListItem.list s2 := by
        simp [get_set_self]
      rw [hgs]
      dsimp only
      rw [ih]
      rw [List.set_set]
      rw [show ListItem.list s = l[i] from hget.symm, set_get_self l i h]

/-- Witness for the C4 theorem: removing child 1 of a two-child sublist
(no demotion) and re-inserting it at the same path restores the tree. -/
theorem remove_insert_roundtrip_witness :
    insertItem (.entry ⟨"y", none⟩) [0, 1]
        (.mk "r" none [.list (.mk "s" none [.entry ⟨"x", none⟩])]) =
      (.mk "r" none [.list (.mk "s" none [.entry ⟨"x", none⟩, .entry ⟨"y", none⟩])], none) :=
  remove_insert_roundtrip [0, 1]
    (.mk "r" none [.list (.mk "s" none [.entry ⟨"x", none⟩, .entry ⟨"y", none⟩])])
    (.entry ⟨"y", none⟩)
    (.mk "r" none [.list (.mk "s" none [.entry ⟨"x", none⟩])]) rfl rfl

/-! ## C1: emptied sublists along a remove path are demoted -/

theorem getAt_single (title : String) (date : Option DateMaybeTime)
    (l : List ListItem) (i : Nat) : getAt (.mk title date l) [i] = l[i]? := by
  rw [getAt]

/-- Unfolding of `getAt` on a descend segment pointing at a sublist. -/
theorem getAt_cons_list (title : String) (date : Option DateMaybeTime)
    (l : List ListItem) (i : Nat) (q : List Nat) (hq : q ≠ []) (s : TodoList)
    (hget : l[i]? = some (.list s)) :
    getAt (.mk title date l) (i :: q) = getAt s q := by
  match q, hq with
  | j :: rest, _ => rw [getAt, hget]

/-- A successful removal never changes the title or date of the list it
runs on. -/
theorem removeItem_title_date (p : List Nat) (s : TodoList) (item : ListItem)
    (s2 : TodoList) (hp : p ≠ []) (hs : removeItem s p = .ok (item, s2)) :
    s2.title = s.title ∧ s2.date = s.date := by
  obtain ⟨st, sd, sl⟩ := s
  match p, hp with
  | [i], _ =>
      obtain ⟨h, _, hshape⟩ := removeItem_single_inv st sd sl i item s2 hs
      subst hshape
      exact ⟨rfl, rfl⟩
  | i :: j :: rest, _ =>
      obtain ⟨h, su, su2, _, _, hshape⟩ := removeItem_cons_inv st sd sl i j rest item s2 hs
      subst hshape
      exact ⟨rfl, rfl⟩

/-- C1: along a successful removal with at least two path segments, every
sublist the removal descended into is still addressed by the same path
prefix afterwards; it has been replaced in place by an `Entry` with the same
title and date exactly when its children became empty (which can only
happen at the deepest level, when it held exactly the one removed child);
otherwise it is still a sublist with the same title and date and nonempty
children — so no descended-into sublist is left with zero children. -/
theorem remove_demotes_emptied :
    ∀ (p : List Nat) (t : TodoList) (item : ListItem) (t2 : TodoList),
      2 ≤ p.length → removeItem t p = .ok (item, t2) →
      ∀ k, 1 ≤ k → k < p.length →
        ∃ s : TodoList, getAt t (p.take k) = some (.list s) ∧
          ((k + 1 = p.length ∧ s.list.length = 1) →
            getAt t2 (p.take k) = some (.entry ⟨s.title, s.date⟩)) ∧
          (¬(k + 1 = p.length ∧ s.list.length = 1) →
            ∃ s2 : TodoList, getAt t2 (p.take k) = some (.list s2) ∧
              s2.title = s.title ∧ s2.date = s.date ∧ s2.list ≠ [])
  | [], _, _, _, hp, _ => by simp at hp
  | [i], _, _, _, hp, _ => by simp at hp
  | i :: j :: rest, .mk title date l, item, t2, hp, hs => by
      obtain ⟨h, s, s2, hget, hrec, hshape⟩ :=
        removeItem_cons_inv title date l i j rest item t2 hs
      subst hshape
      have hgetq : l[i]? = some (.list s) := by rw [List.getElem?_eq_getElem h, hget]
      intro k hk1 hk2
      rcases Nat.lt_or_ge k 2 with hk | hk
      · have hke : k = 1 := by omega
        subst hke
        rw [show (i :: j :: rest).take 1 = [i] from rfl]
        refine ⟨s, by rw [getAt_single, hgetq], ?_, ?_⟩
        · rintro ⟨hlen, hone⟩
          have hrest : rest = [] := by
            simp only [List.length_cons] at hlen
            exact List.length_eq_zero.mp (by omega)
          subst hrest
          obtain ⟨sst, ssd, ssl⟩ := s
          obtain ⟨hj, hitem, hs2⟩ := removeItem_single_inv sst ssd ssl j item s2 hrec
          subst hs2
          simp only [TodoList.list] at hone
          have herase : ssl.eraseIdx j = [] :=
            List.length_eq_zero.mp (by rw [eraseIdx_length ssl j hj]; omega)
          have hchild : (if (TodoList.mk sst ssd (ssl.eraseIdx j)).list.isEmpty then
              ListItem.entry ⟨(TodoList.mk sst ssd (ssl.eraseIdx j)).title,
                (TodoList.mk sst ssd (ssl.eraseIdx j)).date⟩
            else ListItem.list (TodoList.mk sst ssd (ssl.eraseIdx j))) =
              ListItem.entry ⟨sst, ssd⟩ := by
            simp [TodoList.list, TodoList.title, TodoList.date, herase]
          rw [hchild, getAt_single,
            List.getElem?_eq_getElem (by rw [List.length_set]; exact h),
            get_set_self l i _ (by rw [List.length_set]; exact h)]
          rfl
        · intro hnot
          have hns : s2.list ≠ [] := by
            refine remove_keeps_nonempty (j :: rest) s item s2 (by simp) hrec ?_
            intro hlen1 hone
            have hrest : rest = [] := by
              simp only [List.length_cons] at hlen1
              exact List.length_eq_zero.mp (by omega)
            subst hrest
            exact hnot ⟨rfl, hone⟩
          have hchild : (if s2.list.isEmpty then
              ListItem.entry ⟨s2.title, s2.date⟩ else ListItem.list s2) =
              ListItem.list s2 := by
            rw [if_neg]
            simpa [List.isEmpty_iff] using hns
          obtain ⟨hts, hds⟩ :=
            removeItem_title_date (j :: rest) s item s2 (by simp) hrec
          refine ⟨s2, ?_, hts, hds, hns⟩
          rw [hchild, getAt_single,
            List.getElem?_eq_getElem (by rw [List.length_set]; exact h),
            get_set_self l i _ (by rw [List.length_set]; exact h)]
      · obtain ⟨k2, rfl⟩ : ∃ k2, k = k2 + 2 := ⟨k - 2, by omega⟩
        have hrest : rest ≠ [] := by
          intro hr
          subst hr
          simp only [List.length_cons, List.length_nil] at hk2
          omega
        have hns : s2.list ≠ [] := by
          refine remove_keeps_nonempty (j :: rest) s item s2 (by simp) hrec ?_
          intro hlen1
          exfalso
          apply hrest
          simp only [List.length_cons] at hlen1
          exact List.length_eq_zero.mp (by omega)
        have hchild : (if s2.list.isEmpty then
            ListItem.entry ⟨s2.title, s2.date⟩ else ListItem.list s2) =
            ListItem.list s2 := by
          rw [if_neg]
          simpa [List.isEmpty_iff] using hns
        rw [hchild]
        rw [show (i :: j :: rest).take (k2 + 2) = i :: (j :: rest).take (k2 + 1) from rfl]
        have hq : (j :: rest).take (k2 + 1) ≠ [] := by
          rw [show (j :: rest).take (k2 + 1) = j :: rest.take k2 from rfl]
          simp
        have hlen2 : 2 ≤ (j :: rest).length := by
          cases rest with
          | nil => exact absurd rfl hrest
          | cons r rs => simp
        have hget2q : (l.set i (ListItem.list s2))[i]? = some (ListItem.list s2) := by
          rw [List.getElem?_eq_getElem (by rw [List.length_set]; exact h),
            get_set_self l i _ (by rw [List.length_set]; exact h)]
        obtain ⟨su, ih1, ih2, ih3⟩ :=
          remove_demotes_emptied (j :: rest) s item s2 hlen2 hrec (k2 + 1)
            (by omega) (by simp only [List.length_cons] at hk2 ⊢; omega)
        refine ⟨su, ?_, ?_, ?_⟩
        · rw [getAt_cons_list title date l i _ hq s hgetq]
          exact ih1
        · rintro ⟨hlen, hone⟩
          have hres := ih2 ⟨by simp only [List.length_cons] at hlen ⊢; omega, hone⟩
          rw [getAt_cons_list title date _ i _ hq s2 hget2q]
          exact hres
        · intro hnot
          have hnot2 : ¬((k2 + 1) + 1 = (j :: rest).length ∧ su.list.length = 1) := by
            rintro ⟨ha, hb⟩
            exact hnot ⟨by simp only [List.length_cons] at ha ⊢; omega, hb⟩
          obtain ⟨su2, hsu2, hts, hds, hnn⟩ := ih3 hnot2
          refine ⟨su2, ?_, hts, hds, hnn⟩
          rw [getAt_cons_list title date _ i _ hq s2 hget2q]
          exact hsu2

/-- Witness for the C1 theorem: removing the only child of the sublist at
`[0]` (path `[0, 0]`) demotes that sublist to an entry with its title and
date. -/
theorem remove_demotes_emptied_witness :
    ∃ s : TodoList,
      getAt (.mk "r" none [.list (.mk "s" (some (.date 5)) [.entry ⟨"x", none⟩])])
        [0] = some (.list s) ∧
      ((1 + 1 = 2 ∧ s.list.length = 1) →
        getAt (.mk "r" none [.entry ⟨"s", some (.date 5)⟩]) [0] =
          some (.entry ⟨s.title, s.date⟩)) ∧
      (¬(1 + 1 = 2 ∧ s.list.length = 1) →
        ∃ s2 : TodoList,
          getAt (.mk "r" none [.entry ⟨"s", some (.date 5)⟩]) [0] =
            some (.list s2) ∧ s2.title = s.title ∧ s2.date = s.date ∧ s2.list ≠ []) :=
  remove_demotes_emptied [0, 0]
    (.mk "r" none [.list (.mk "s" (some (.date 5)) [.entry ⟨"x", none⟩])])
    (.entry ⟨"x", none⟩) (.mk "r" none [.entry ⟨"s", some (.date 5)⟩])
    (by decide) rfl 1 (by decide) (by decide)

/-! ## C6: sort order, sentinel and stability -/

theorem optTimeLe_total (a b : Option Nat) : optTimeLe a b ∨ optTimeLe b a := by
  cases a <;> cases b <;> first | exact Or.inl trivial | exact Or.inr trivial | simp [optTimeLe, Nat.le_total]

theorem optTimeLe_trans (a b c : Option Nat)
    (h1 : optTimeLe a b) (h2 : optTimeLe b c) : optTimeLe a c := by
  cases a <;> cases b <;> cases c <;> simp_all [optTimeLe]
  omega


theorem keyLe_total (a b : Int × Option Nat) : keyLe a b ∨ keyLe b a := by
  obtain ⟨d1, t1⟩ := a
  obtain ⟨d2, t2⟩ := b
  rcases lt_trichotomy d1 d2 with hlt | heq | hgt
  · exact Or.inl (Or.inl hlt)
  · subst heq
    rcases optTimeLe_total t1 t2 with ht | ht
    · exact Or.inl (Or.inr ⟨rfl, ht⟩)
    · exact Or.inr (Or.inr ⟨rfl, ht⟩)
  · exact Or.inr (Or.inl hgt)

theorem keyLe_trans (a b c : Int × Option Nat)
    (h1 : keyLe a b) (h2 : keyLe b c) : keyLe a c := by
  obtain ⟨d1, t1⟩ := a
  obtain ⟨d2, t2⟩ := b
  obtain ⟨d3, t3⟩ := c
  rcases h1 with h1 | ⟨he1, ht1⟩ <;> rcases h2 with h2 | ⟨he2, ht2⟩
  · exact Or.inl (by simp_all; omega)
  · exact Or.inl (by simp_all)
  · exact Or.inl (by simp_all)
  · exact Or.inr ⟨by simp_all, by simp_all; exact optTimeLe_trans t1 t2 t3 ht1 ht2⟩

instance : IsTotal ListItem itemLe :=
  ⟨fun a b => keyLe_total (sortKey a) (sortKey b)⟩

instance : IsTrans ListItem itemLe :=
  ⟨fun a b c => keyLe_trans (sortKey a) (sortKey b) (sortKey c)⟩

/-- An item without a date gets the sentinel sort key `(MAX_DATE, none)`. -/
theorem sortKey_undated (x : ListItem) (h : (itemDate x).isNone = true) :
    sortKey x = (maxDate, none) := by
  have hnone : itemDate x = none := Option.isNone_iff_eq_none.mp h
  unfold sortKey
  rw [hnone]
  rfl

/-- Stability: filtering by any class of items that all carry the sentinel
key commutes with the stable sort of one level. -/
theorem filter_sortLevel (p : ListItem → Bool) (l : List ListItem)
    (hkey : ∀ x, p x = true → sortKey x = (maxDate, none)) :
    (sortLevel l).filter p = l.filter p := by
  have hpair : (l.filter p).Pairwise itemLe := by
    apply List.pairwise_of_forall_mem_list
    intro a ha b hb
    unfold itemLe
    rw [hkey a (List.of_mem_filter ha), hkey b (List.of_mem_filter hb)]
    exact Or.inr ⟨rfl, trivial⟩
  have hsub : List.Sublist (l.filter p) (sortLevel l) :=
    List.sublist_insertionSort hpair (List.filter_sublist l)
  have hself : (l.filter p).filter p = l.filter p :=
    List.filter_eq_self.mpr fun a ha => List.of_mem_filter ha
  have hsub2 : List.Sublist (l.filter p) ((sortLevel l).filter p) := by
    rw [← hself]
    exact hsub.filter p
  have hperm : ((sortLevel l).filter p).Perm (l.filter p) :=
    (List.perm_insertionSort itemLe l).filter p
  exact (hsub2.eq_of_length hperm.length_eq.symm).symm

theorem undatedTitles_cons (x : ListItem) (xs : List ListItem) :
    undatedTitles (x :: xs) =
      if (itemDate x).isNone then itemTitle x :: undatedTitles xs
      else undatedTitles xs := by
  unfold undatedTitles
  rw [List.filter_cons]
  split <;> simp

theorem undatedTitles_sortLevel (l : List ListItem) :
    undatedTitles (sortLevel l) = undatedTitles l := by
  unfold undatedTitles
  rw [filter_sortLevel _ l fun x hx => sortKey_undated x hx]

theorem sort_keeps_title (s : TodoList) : (TodoList.sort s).title = s.title := by
  obtain ⟨title, date, cs⟩ := s
  rw [TodoList.sort]
  rfl

theorem sort_keeps_date (s : TodoList) : (TodoList.sort s).date = s.date := by
  obtain ⟨title, date, cs⟩ := s
  rw [TodoList.sort]
  rfl

theorem undatedTitles_sortItems (l : List ListItem) :
    undatedTitles (sortItems l) = undatedTitles l := by
  induction l with
  | nil => rfl
  | cons x rest ih =>
      cases x with
      | entry e =>
          rw [sortItems, undatedTitles_cons, undatedTitles_cons, ih]
      | list s =>
          rw [sortItems, undatedTitles_cons, undatedTitles_cons, ih]
          simp [itemDate, itemTitle, sort_keeps_title, sort_keeps_date]

theorem mem_levelsItems (lvl : List ListItem) (cs : List ListItem) :
    lvl ∈ levelsItems cs ↔ ∃ s : TodoList, ListItem.list s ∈ cs ∧ lvl ∈ levelsList s := by
  induction cs with
  | nil => simp [levelsItems]
  | cons x rest ih =>
      cases x with
      | entry e =>
          rw [levelsItems, ih]
          constructor
          · rintro ⟨s, hm, hl⟩
            exact ⟨s, List.mem_cons_of_mem _ hm, hl⟩
          · rintro ⟨s, hm, hl⟩
            rcases List.mem_cons.mp hm with heq | hm2
            · exact absurd heq (by simp)
            · exact ⟨s, hm2, hl⟩
      | list s1 =>
          rw [levelsItems]
          constructor
          · intro h
            rcases List.mem_append.mp h with h1 | h2
            · exact ⟨s1, List.mem_cons_self _ _, h1⟩
            · obtain ⟨s, hm, hl⟩ := ih.mp h2
              exact ⟨s, List.mem_cons_of_mem _ hm, hl⟩
          · rintro ⟨s, hm, hl⟩
            rcases List.mem_cons.mp hm with heq | hm2
            · obtain rfl : s = s1 := by injection heq
              exact List.mem_append.mpr (Or.inl hl)
            · exact List.mem_append.mpr (Or.inr (ih.mpr ⟨s, hm2, hl⟩))

theorem list_mem_sortItems (s : TodoList) (cs : List ListItem)
    (h : ListItem.list s ∈ sortItems cs) :
    ∃ s0 : TodoList, s = TodoList.sort s0 ∧ ListItem.list s0 ∈ cs := by
  induction cs with
  | nil => simp [sortItems] at h
  | cons x rest ih =>
      cases x with
      | entry e =>
          rw [sortItems] at h
          rcases List.mem_cons.mp h with heq | hm
          · exact absurd heq (by simp)
          · obtain ⟨s0, h1, h2⟩ := ih hm
            exact ⟨s0, h1, List.mem_cons_of_mem _ h2⟩
      | list s1 =>
          rw [sortItems] at h
          rcases List.mem_cons.mp h with heq | hm
          · refine ⟨s1, by injection heq, List.mem_cons_self _ _⟩
          · obtain ⟨s0, h1, h2⟩ := ih hm
            exact ⟨s0, h1, List.mem_cons_of_mem _ h2⟩

theorem sizeOf_subtree {s : TodoList} {cs : List ListItem}
    (h : ListItem.list s ∈ cs) : sizeOf s < sizeOf cs := by
  have h1 := List.sizeOf_lt_of_mem h
  have h2 : sizeOf (ListItem.list s) = 1 + sizeOf s := by simp
  omega

theorem sort_levels_sorted :
    ∀ (n : Nat) (t : TodoList), sizeOf t ≤ n →
      ∀ lvl ∈ levelsList (TodoList.sort t), lvl.Pairwise itemLe := by
  intro n
  induction n using Nat.strong_induction_on with
  | _ n ih =>
      intro t ht lvl hlvl
      obtain ⟨title, date, cs⟩ := t
      rw [TodoList.sort, levelsList] at hlvl
      rcases List.mem_cons.mp hlvl with heq | hmem
      · subst heq
        exact List.sorted_insertionSort itemLe (sortItems cs)
      · obtain ⟨s, hsmem, hlvl2⟩ := (mem_levelsItems lvl _).mp hmem
        have hsmem2 : ListItem.list s ∈ sortItems cs :=
          (List.perm_insertionSort itemLe (sortItems cs)).mem_iff.mp hsmem
        obtain ⟨s0, rfl, hs0mem⟩ := list_mem_sortItems s cs hsmem2
        have hsz : sizeOf s0 < n := by
          have h1 := sizeOf_subtree hs0mem
          have h2 : sizeOf (TodoList.mk title date cs) =
              1 + sizeOf title + sizeOf date + sizeOf cs := by simp
          omega
        exact ih (sizeOf s0) hsz s0 le_rfl lvl hlvl2

/-- C6 counterexample: a level `[a (no date), b (dated exactly MAX_DATE)]`
is left unchanged by `sort` — both items carry the same sentinel sort key
and the sort is stable — so the undated `a` stays before the dated `b`,
refuting "every node without a date appears after every node with a
date". -/
theorem sort_counterexample :
    TodoList.sort (.mk "r" none
        [.entry ⟨"a", none⟩, .entry ⟨"b", some (.date maxDate)⟩]) =
      .mk "r" none [.entry ⟨"a", none⟩, .entry ⟨"b", some (.date maxDate)⟩] ∧
    undatedLast (TodoList.sort (.mk "r" none
        [.entry ⟨"a", none⟩, .entry ⟨"b", some (.date maxDate)⟩])).list = false :=
  ⟨rfl, rfl⟩

/-- C6 amended: after `sort`, every level of the tree is ordered by the key
`(date, optional time)` with an absent date treated as the sentinel
`(MAX_DATE, no time)`; consequently after any undated node only nodes whose
key is at least the sentinel key can appear (so every node dated strictly
before `MAX_DATE` precedes every undated node, while nodes dated exactly at
the sentinel may tie with undated ones); and the undated items of a level
keep their pre-sort relative order (stability), witnessed by their title
sequence. -/
theorem sort_levels (t : TodoList) :
    (∀ lvl ∈ levelsList (TodoList.sort t), lvl.Pairwise itemLe) ∧
    (∀ lvl ∈ levelsList (TodoList.sort t), lvl.Pairwise fun a b =>
      (itemDate a).isNone = true → keyLe (maxDate, none) (sortKey b)) ∧
    undatedTitles (TodoList.sort t).list = undatedTitles t.list := by
  refine ⟨fun lvl h => sort_levels_sorted (sizeOf t) t le_rfl lvl h, ?_, ?_⟩
  · intro lvl h
    refine (sort_levels_sorted (sizeOf t) t le_rfl lvl h).imp ?_
    intro a b hab hund
    unfold itemLe at hab
    rwa [sortKey_undated a hund] at hab
  · obtain ⟨title, date, cs⟩ := t
    rw [TodoList.sort]
    simp only [TodoList.list]
    rw [undatedTitles_sortLevel, undatedTitles_sortItems]

/-- Witness for the C6 theorem: in the sorted two-entry tree the top level
`[b (dated), a (undated)]` is key-ordered, the dated-before-undated pairwise
property holds, and the undated titles are preserved. -/
theorem sort_levels_witness :
    ([ListItem.entry ⟨"b", some (.date 5)⟩, .entry ⟨"a", none⟩] :
        List ListItem).Pairwise itemLe ∧
    ([ListItem.entry ⟨"b", some (.date 5)⟩, .entry ⟨"a", none⟩] :
        List ListItem).Pairwise (fun a b =>
      (itemDate a).isNone = true → keyLe (maxDate, none) (sortKey b)) ∧
    undatedTitles (TodoList.sort (.mk "r" none
        [.entry ⟨"a", none⟩, .entry ⟨"b", some (.date 5)⟩])).list =
      undatedTitles (TodoList.mk "r" none
        [.entry ⟨"a", none⟩, .entry ⟨"b", some (.date 5)⟩]).list := by
  obtain ⟨h1, h2, h3⟩ := sort_levels (.mk "r" none
    [.entry ⟨"a", none⟩, .entry ⟨"b", some (.date 5)⟩])
  exact ⟨h1 _ (List.Mem.head _), h2 _ (List.Mem.head _), h3⟩

/-! ## C10: removal never demotes the root -/

/-- C10: removing the only child of the root list by the single-segment path
`[0]` succeeds, returns that child, and leaves the root as the same list with
zero children — the root is a `TodoList` and stays one; demotion to an
`Entry` can only happen to a nested sublist reached by descending through at
least one path segment (see the C1 theorem). -/
theorem remove_root_keeps_list (t : TodoList) (item : ListItem)
    (h : t.list = [item]) :
    removeItem t [0] = .ok (item, .mk t.title t.date []) := by
  obtain ⟨title, date, l⟩ := t
  simp only [TodoList.list] at h
  subst h
  rfl

/-! ## C2: entry promotion on nested insertion -/

/-- C2: when the child at index `i` is an `Entry` and an item is inserted at
path `[i, 0]`, the insertion succeeds and the `Entry` is replaced in place by
a `Sublist` carrying the same title and date whose children are exactly
`[item]`; the same promotion happens for `add` with path `[i]` (the nested
position addressed through the entry).  In particular, for a tree whose
child at index 0 is an Entry, `Insert(item, [0, 0])` promotes it. -/
theorem insert_promotes_entry (t : TodoList) (i : Nat) (e : TodoEntry) (item : ListItem)
    (h : t.list[i]? = some (.entry e)) :
    insertItem item [i, 0] t =
      (.mk t.title t.date (t.list.set i (.list (.mk e.title e.date [item]))), none) ∧
    addItem item [i] t =
      (.mk t.title t.date (t.list.set i (.list (.mk e.title e.date [item]))), none) := by
  obtain ⟨title, date, l⟩ := t
  simp only [TodoList.list, TodoList.title, TodoList.date] at h ⊢
  obtain ⟨hlt, hget⟩ := List.getElem?_eq_some.mp h
  have hget2 : l.get ⟨i, hlt⟩ = ListItem.entry e := by simpa using hget
  constructor
  · simp only [insertItem, dif_pos hlt, hget2]
    rfl
  · simp only [addItem, dif_pos hlt, hget2]
    rfl

/-- Witness for the C2 theorem: the concrete promotion of the claim, with the
entry at index 0 and insertion at `[0, 0]`. -/
theorem insert_promotes_entry_witness :
    insertItem (.entry ⟨"n", none⟩) [0, 0] (.mk "r" none [.entry ⟨"e", some (.date 3)⟩]) =
      (.mk "r" none [.list (.mk "e" (some (.date 3)) [.entry ⟨"n", none⟩])], none) ∧
    addItem (.entry ⟨"n", none⟩) [0] (.mk "r" none [.entry ⟨"e", some (.date 3)⟩]) =
      (.mk "r" none [.list (.mk "e" (some (.date 3)) [.entry ⟨"n", none⟩])], none) :=
  insert_promotes_entry (.mk "r" none [.entry ⟨"e", some (.date 3)⟩]) 0
    ⟨"e", some (.date 3)⟩ (.entry ⟨"n", none⟩) rfl

/-! ## C9: trailing newline policy of the renderer -/

theorem childSep_indent_zero (i len : Nat) : childSep i len 0 = "\n" :=
  if_pos (Or.inr rfl)

theorem writeChildren_cons (x : ListItem) (rest : List ListItem) (i len indent : Nat)
    (today : Int) (tod : Nat) :
    writeChildren (x :: rest) i len indent today tod =
      indentSpaces indent ++ markerFor x i ++ " " ++
        ListItem.writeTo x (indent + 1) today tod ++ childSep i len indent ++
        writeChildren rest (i + 1) len indent today tod := by
  cases x <;> rw [writeChildren]

theorem writeTo_mk (title : String) (date : Option DateMaybeTime) (l : List ListItem)
    (indent : Nat) (today : Int) (tod : Nat) :
    TodoList.writeTo (.mk title date l) indent today tod =
      (if indent = 0 then "   " else "") ++ underline title ++ " " ++
        dateTagOpt date today tod ++ "\n" ++
        writeChildren l 0 l.length indent today tod := by
  cases date <;> rw [TodoList.writeTo]

theorem endsWithNewline_append (s t : String) (h : endsWithNewline t) :
    endsWithNewline (s ++ t) := by
  obtain ⟨p, rfl⟩ := h
  exact ⟨s ++ p, (String.append_assoc s p "\n").symm⟩

theorem writeChildren_endsWithNewline (cs : List ListItem) :
    ∀ (i len : Nat) (today : Int) (tod : Nat), cs ≠ [] →
      endsWithNewline (writeChildren cs i len 0 today tod) := by
  induction cs with
  | nil => exact fun _ _ _ _ h => absurd rfl h
  | cons x rest ih =>
      intro i len today tod _
      rw [writeChildren_cons, childSep_indent_zero]
      by_cases hr : rest = []
      · subst hr
        rw [writeChildren, String.append_empty]
        exact ⟨_, rfl⟩
      · exact endsWithNewline_append _ _ (ih (i + 1) len today tod hr)

/-- C9 counterexample: rendering a root with a single child at depth 0 ends
with a newline directly after that (last) child's line — the renderer writes
a newline after every depth-0 child, the last one included, so the top-level
rendering does not omit the final newline as the claim states. -/
theorem render_counterexample :
    TodoList.writeTo (.mk "t" none [.entry ⟨"a", none⟩]) 0 0 0 =
      "   \u001b[4mt\u001b[0m \n\u001b[36m0)\u001b[0m a\n" ∧
    endsWithNewline (TodoList.writeTo (.mk "t" none [.entry ⟨"a", none⟩]) 0 0 0) := by
  exact ⟨rfl, "   \u001b[4mt\u001b[0m \n\u001b[36m0)\u001b[0m a", rfl⟩

/-- C9 amended: every child line is terminated by a newline except the last
child of a level rendered at indent ≥ 1; at depth 0 every child, the last
included, is followed by a newline, so the top-level rendering always ends
with a trailing newline. -/
theorem render_trailing_newline (t : TodoList) (today : Int) (tod : Nat) :
    endsWithNewline (TodoList.writeTo t 0 today tod) := by
  obtain ⟨title, date, l⟩ := t
  rw [writeTo_mk]
  by_cases hl : l = []
  · subst hl
    rw [writeChildren, String.append_empty]
    exact ⟨_, rfl⟩
  · exact endsWithNewline_append _ _
      (writeChildren_endsWithNewline l 0 l.length today tod hl)

/-- Witness for the C10 theorem: a concrete one-child root. -/
theorem remove_root_keeps_list_witness :
    removeItem (.mk "r" (some (.date 7)) [.entry ⟨"a", none⟩]) [0] =
      .ok (.entry ⟨"a", none⟩, .mk "r" (some (.date 7)) []) :=
  remove_root_keeps_list (.mk "r" (some (.date 7)) [.entry ⟨"a", none⟩])
    (.entry ⟨"a", none⟩) rfl

end Later
